import Mathlib

/-!
Verification of the timeline data model and silence-segmentation engine of
`addictive-videos-editor` (`video_editor/features/remove_silence.py`), together
with the orchestration step that invokes it (`video_editor/orchestrator.py`).

The embedding follows `RemoveSilence.cut_clips` line by line.  Frame counts are
`Int` (Python integers; the arithmetic can go negative on malformed loud maps
and must not be clipped).  The loud-map JSON is modelled after parsing: a list
of `LoudPart` records plus a rational timebase, of which the code uses only the
numerator (`loud_map_json['timebase'].split('/')[0]`).  A loud-map file that is
absent or unreadable (`open` in `get_loud_map` raising) is modelled as `none`.
-/

namespace AVE

/-- One interval of a loud map as decoded from the JSON emitted by the external
detection tool.  `cut_clips` reads the field literally named `offset` as the
interval's start position inside the asset
(`loud_clip_start = loud_part['offset']`, see the NOTE at line 131 of
`remove_silence.py`) and `dur` as its duration in frames. -/
structure LoudPart where
  offset : Int
  dur : Int
deriving DecidableEq

/-- One clip item appended to the sequence by `timeline.add_clip_to_timeline`,
recording exactly the arguments `cut_clips` passes: `num_frames`, `start`
(the source in-point parameter), `offset` (the placement-offset parameter,
`previous_video_duration + ...`), `fps` (the timebase numerator) and whether
the custom attribute `ave_silent: true` was attached. -/
structure SubClip where
  num_frames : Int
  start : Int
  offset : Int
  fps : Int
  silent : Bool
deriving DecidableEq

/-- The per-interval loop of `cut_clips` (lines 129-181 of
`remove_silence.py`), specialised to one asset.  `prevStart`, `prevOffset`,
`prevDur` are the `previous_loud_clip_start` / `previous_loud_clip_offset` /
`previous_loud_clip_duration` variables, all initialised to 0; `base` is
`previous_video_duration` (the snapshot of `self.cumulative_duration`), `D` is
`base_clip_duration` and `tb` the timebase numerator.  The `[]` case is the
code after the loop: the trailing
`if previous_loud_clip_start + previous_loud_clip_duration < base_clip_duration`
block that adds the last silent part. -/
def cutLoudParts (base D tb prevStart prevOffset prevDur : Int) :
    List LoudPart → List SubClip
  | [] =>
    if prevStart + prevDur < D then
      [⟨D - (prevStart + prevDur), prevOffset + prevDur,
        base + (prevStart + prevDur), tb, true⟩]
    else []
  | lp :: rest =>
    let loudClipStart := lp.offset
    let silentClipStart := prevStart + prevDur
    let silentClipDuration := loudClipStart - silentClipStart
    let silentClipOffset := prevOffset + prevDur
    let silentClips : List SubClip :=
      if 0 < silentClipDuration then
        [⟨silentClipDuration, silentClipOffset, base + silentClipStart, tb, true⟩]
      else []
    let loudClipOffset := silentClipOffset + silentClipDuration
    silentClips ++ ⟨lp.dur, loudClipStart, base + loudClipOffset, tb, false⟩ ::
      cutLoudParts base D tb loudClipStart loudClipOffset lp.dur rest

/-- Segmentation of one asset: the body of the `for ref in
self.timeline.video_assets_refs` loop of `cut_clips`, from the cursor
initialisation through the trailing silent part, as a pure function of the
snapshotted cumulative base, the base-clip duration, the timebase numerator
and the loud map. -/
def cutAsset (base D tb : Int) (lm : List LoudPart) : List SubClip :=
  cutLoudParts base D tb 0 0 0 lm

/-- One source asset as seen by `cut_clips`: its base clip's `num_frames`, the
parsed rational timebase of its loud map, and the loud map itself (`none` when
`get_loud_map` cannot open the map file, in which case the `open` call raises
and `cut_clips` aborts). -/
structure Asset where
  duration : Int
  timebase : Int × Int
  loudMap : Option (List LoudPart)
deriving DecidableEq

/-- The multi-asset run of `cut_clips`: assets are processed in
`video_assets_refs` order; each contributes its emitted sub-clips and then
`self.cumulative_duration += base_clip_duration`.  The result is the list of
per-asset emitted sub-clip lists for the assets that were fully processed, the
suffix of assets left untouched when a loud map failed to load (the failing
asset first, its base clip still on the timeline), and whether the final
`self.timeline.update_sequence_duration()` call (after the loop) was
reached. -/
def cutClipsRun (cum : Int) : List Asset → List (List SubClip) × List Asset × Bool
  | [] => ([], [], true)
  | a :: rest =>
    match a.loudMap with
    | none => ([], a :: rest, false)
    | some lm =>
      let out := cutAsset cum a.duration a.timebase.1 lm
      let r := cutClipsRun (cum + a.duration) rest
      (out :: r.1, r.2.1, r.2.2)

/-- Timeline mutations performed by `cut_clips`, in order:
`add_clip_to_timeline`, `remove_stored_video_asset` (removal of an asset's
base clip), and `update_sequence_duration`. -/
inductive TimelineEvent where
  | addClip : SubClip → TimelineEvent
  | removeBase : TimelineEvent
  | updateSeq : TimelineEvent
deriving DecidableEq

/-- The sequence of timeline mutations a `cut_clips` run performs: per asset,
all `add_clip_to_timeline` calls, then the removal of its base clip; after the
loop over all assets, a single `update_sequence_duration` call.  A failing
loud-map load raises out of `cut_clips`, so no further events occur. -/
def cutClipsTrace (cum : Int) : List Asset → List TimelineEvent
  | [] => [TimelineEvent.updateSeq]
  | a :: rest =>
    match a.loudMap with
    | none => []
    | some lm =>
      (cutAsset cum a.duration a.timebase.1 lm).map TimelineEvent.addClip
        ++ TimelineEvent.removeBase :: cutClipsTrace (cum + a.duration) rest

/-- Number of `update_sequence_duration` calls in a trace. -/
def countUpdateSeq : List TimelineEvent → Nat
  | [] => 0
  | TimelineEvent.updateSeq :: rest => countUpdateSeq rest + 1
  | _ :: rest => countUpdateSeq rest

/-- Number of base-clip removals in a trace. -/
def countRemoveBase : List TimelineEvent → Nat
  | [] => 0
  | TimelineEvent.removeBase :: rest => countRemoveBase rest + 1
  | _ :: rest => countRemoveBase rest

/-- Well-formedness of a loud map from cursor `c`: intervals sorted ascending
and non-overlapping (each starts at or after the previous end), with
non-negative durations, each contained in `[0, D)`. -/
def wfFrom (c D : Int) : List LoudPart → Bool
  | [] => true
  | lp :: rest =>
    decide (c ≤ lp.offset) && decide (0 ≤ lp.dur) && decide (lp.offset + lp.dur ≤ D)
      && wfFrom (lp.offset + lp.dur) D rest

/-- Well-formed loud map over an asset of duration `D`. -/
def wfLoudMap (D : Int) (lm : List LoudPart) : Bool :=
  wfFrom 0 D lm

/-- `contiguousFrom c cs` holds when the emitted sub-clips `cs`, in emission
order, tile the source media starting at in-point `c`: each clip's source
in-point is the running cursor and advances it by the clip's duration. -/
def contiguousFrom (c : Int) : List SubClip → Bool
  | [] => true
  | cl :: rest => decide (cl.start = c) && contiguousFrom (c + cl.num_frames) rest

/-- Sum of the durations of a list of sub-clips. -/
def sumDur : List SubClip → Int
  | [] => 0
  | cl :: rest => cl.num_frames + sumDur rest

/-- `coversFrom c D lm` holds when the loud map `lm` contiguously covers the
source range from `c` up to exactly `D`: each interval starts exactly at the
running cursor and the last one ends at `D`. -/
def coversFrom (c D : Int) : List LoudPart → Bool
  | [] => decide (c = D)
  | lp :: rest => decide (lp.offset = c) && coversFrom (c + lp.dur) D rest


theorem countUpdateSeq_append (l₁ l₂ : List TimelineEvent) :
    countUpdateSeq (l₁ ++ l₂) = countUpdateSeq l₁ + countUpdateSeq l₂ := by
  induction l₁ with
  | nil => simp [countUpdateSeq]
  | cons e t ih => cases e <;> simp [countUpdateSeq, ih] <;> omega

theorem countUpdateSeq_map_addClip (cs : List SubClip) :
    countUpdateSeq (cs.map TimelineEvent.addClip) = 0 := by
  induction cs with
  | nil => rfl
  | cons c t ih => simpa [countUpdateSeq] using ih

theorem countRemoveBase_append (l₁ l₂ : List TimelineEvent) :
    countRemoveBase (l₁ ++ l₂) = countRemoveBase l₁ + countRemoveBase l₂ := by
  induction l₁ with
  | nil => simp [countRemoveBase]
  | cons e t ih => cases e <;> simp [countRemoveBase, ih] <;> omega

theorem countRemoveBase_map_addClip (cs : List SubClip) :
    countRemoveBase (cs.map TimelineEvent.addClip) = 0 := by
  induction cs with
  | nil => rfl
  | cons c t ih => simpa [countRemoveBase] using ih

theorem cutLoudParts_offset_eq (base D tb : Int) (lm : List LoudPart) :
    ∀ ps pd cl, cl ∈ cutLoudParts base D tb ps ps pd lm → cl.offset = base + cl.start := by
  induction lm with
  | nil =>
    intro ps pd cl hcl
    simp only [cutLoudParts] at hcl
    split at hcl
    · simp only [List.mem_singleton] at hcl
      subst hcl
      rfl
    · simp at hcl
  | cons lp rest ih =>
    intro ps pd cl hcl
    simp only [cutLoudParts, List.mem_append, List.mem_cons] at hcl
    rcases hcl with hs | hl | hr
    · split at hs
      · simp only [List.mem_singleton] at hs
        subst hs
        rfl
      · simp at hs
    · subst hl
      simp only [SubClip.offset, SubClip.start]
      omega
    · have hpo : ps + pd + (lp.offset - (ps + pd)) = lp.offset := by ring
      rw [hpo] at hr
      exact ih lp.offset lp.dur cl hr


theorem cutLoudParts_filter_loud (base D tb : Int) (lm : List LoudPart) :
    ∀ ps po pd,
      ((cutLoudParts base D tb ps po pd lm).filter (fun c => !c.silent)).map
          (fun c => (c.start, c.num_frames))
        = lm.map (fun lp => (lp.offset, lp.dur)) := by
  induction lm with
  | nil =>
    intro ps po pd
    simp only [cutLoudParts]
    split <;> simp [List.filter]
  | cons lp rest ih =>
    intro ps po pd
    simp only [cutLoudParts, List.filter_append]
    split
    · simp only [List.filter, List.map, List.map_cons]
      rw [ih]
    · simp only [List.filter, List.map, List.map_cons]
      rw [ih]

theorem cutLoudParts_length_le (base D tb : Int) (lm : List LoudPart) :
    ∀ ps po pd, (cutLoudParts base D tb ps po pd lm).length ≤ 2 * lm.length + 1 := by
  induction lm with
  | nil =>
    intro ps po pd
    simp only [cutLoudParts]
    split <;> simp
  | cons lp rest ih =>
    intro ps po pd
    simp only [cutLoudParts, List.length_append, List.length_cons, List.length_map]
    have h := ih lp.offset (po + pd + (lp.offset - (ps + pd))) lp.dur
    split <;> simp only [List.length_cons, List.length_nil, List.length] <;> omega


theorem cutLoudParts_contig (base D tb : Int) (lm : List LoudPart) :
    ∀ ps pd, ps + pd ≤ D → wfFrom (ps + pd) D lm = true →
      contiguousFrom (ps + pd) (cutLoudParts base D tb ps ps pd lm) = true
      ∧ sumDur (cutLoudParts base D tb ps ps pd lm) = D - (ps + pd) := by
  induction lm with
  | nil =>
    intro ps pd hle _
    simp only [cutLoudParts]
    split
    · next h =>
      constructor
      · simp only [contiguousFrom, SubClip.start, SubClip.num_frames]
        simp [contiguousFrom]
      · simp [sumDur]
    · next h =>
      have : ps + pd = D := le_antisymm hle (not_lt.mp h)
      simp [contiguousFrom, sumDur, this]
  | cons lp rest ih =>
    intro ps pd hle hwf
    simp only [wfFrom, Bool.and_eq_true, decide_eq_true_eq] at hwf
    obtain ⟨⟨⟨h1, h2⟩, h3⟩, h4⟩ := hwf
    have hpo : ps + pd + (lp.offset - (ps + pd)) = lp.offset := by ring
    have hih := ih lp.offset lp.dur (by omega) h4
    simp only [cutLoudParts, hpo]
    split
    · next hgap =>
      constructor
      · simp only [List.cons_append, List.nil_append, contiguousFrom,
          Bool.and_eq_true, decide_eq_true_eq]
        refine ⟨trivial, ?_⟩
        have hc1 : ps + pd + (lp.offset - (ps + pd)) = lp.offset := hpo
        rw [hc1]
        simp only [contiguousFrom, Bool.and_eq_true, decide_eq_true_eq]
        exact ⟨trivial, hih.1⟩
      · simp only [List.cons_append, List.nil_append, sumDur]
        omega
    · next hgap =>
      have heq : lp.offset = ps + pd := by omega
      constructor
      · simp only [List.nil_append, contiguousFrom, Bool.and_eq_true, decide_eq_true_eq]
        rw [show ps + pd = lp.offset from heq.symm]
        exact ⟨rfl, hih.1⟩
      · simp only [List.nil_append, sumDur]
        omega


theorem contiguousFrom_head (cs : List SubClip) (c : Int)
    (h : contiguousFrom c cs = true) (cl : SubClip) (hcl : cs.head? = some cl) :
    cl.start = c := by
  cases cs with
  | nil => simp at hcl
  | cons x rest =>
    simp only [List.head?_cons, Option.some.injEq] at hcl
    subst hcl
    simp only [contiguousFrom, Bool.and_eq_true, decide_eq_true_eq] at h
    exact h.1

theorem contiguousFrom_pairwise (cs : List SubClip) :
    ∀ c, contiguousFrom c cs = true → ∀ i c1 c2, cs[i]? = some c1 →
      cs[i+1]? = some c2 → c1.start + c1.num_frames = c2.start := by
  induction cs with
  | nil => intro c _ i c1 c2 h1; simp at h1
  | cons x rest ih =>
    intro c hc i c1 c2 h1 h2
    simp only [contiguousFrom, Bool.and_eq_true, decide_eq_true_eq] at hc
    obtain ⟨hx, hrest⟩ := hc
    cases i with
    | zero =>
      simp only [List.getElem?_cons_zero, Option.some.injEq] at h1
      simp only [List.getElem?_cons_succ] at h2
      have hh : rest.head? = some c2 := by
        cases rest with
        | nil => simp at h2
        | cons y t => simp only [List.getElem?_cons_zero, Option.some.injEq] at h2; simp [h2]
      have h3 := contiguousFrom_head rest (c + x.num_frames) hrest c2 hh
      subst h1
      omega
    | succ j =>
      simp only [List.getElem?_cons_succ] at h1 h2
      exact ih (c + x.num_frames) hrest j c1 c2 h1 h2

theorem contiguousFrom_getLast (cs : List SubClip) :
    ∀ c, contiguousFrom c cs = true → ∀ cl, cs.getLast? = some cl →
      cl.start + cl.num_frames = c + sumDur cs := by
  induction cs with
  | nil => intro c _ cl hcl; simp at hcl
  | cons x rest ih =>
    intro c hc cl hcl
    simp only [contiguousFrom, Bool.and_eq_true, decide_eq_true_eq] at hc
    obtain ⟨hx, hrest⟩ := hc
    cases rest with
    | nil =>
      simp only [List.getLast?_singleton, Option.some.injEq] at hcl
      subst hcl
      simp only [sumDur]
      omega
    | cons y t =>
      rw [List.getLast?_cons_cons] at hcl
      have := ih (c + x.num_frames) hrest cl hcl
      simp only [sumDur] at this ⊢
      omega

theorem cutLoudParts_covers (base D tb : Int) (lm : List LoudPart) :
    ∀ ps pd, coversFrom (ps + pd) D lm = true →
      cutLoudParts base D tb ps ps pd lm
        = lm.map (fun lp => ⟨lp.dur, lp.offset, base + lp.offset, tb, false⟩) := by
  induction lm with
  | nil =>
    intro ps pd h
    simp only [coversFrom, decide_eq_true_eq] at h
    simp only [cutLoudParts, List.map_nil]
    rw [if_neg (by omega)]
  | cons lp rest ih =>
    intro ps pd h
    simp only [coversFrom, Bool.and_eq_true, decide_eq_true_eq] at h
    obtain ⟨h1, h2⟩ := h
    have hpo : ps + pd + (lp.offset - (ps + pd)) = lp.offset := by ring
    simp only [cutLoudParts, hpo]
    rw [if_neg (by omega)]
    simp only [List.nil_append, List.map_cons]
    congr 1
    have h2' : coversFrom (lp.offset + lp.dur) D rest = true := by
      rw [h1]; exact h2
    exact ih lp.offset lp.dur h2'

theorem cutLoudParts_cons_ne_nil (base D tb ps po pd : Int) (lp : LoudPart)
    (rest : List LoudPart) : cutLoudParts base D tb ps po pd (lp :: rest) ≠ [] := by
  simp only [cutLoudParts]
  split <;> simp


theorem cutLoudParts_nil_eq (base D tb ps po pd : Int) :
    cutLoudParts base D tb ps po pd []
      = if ps + pd < D then
          [⟨D - (ps + pd), po + pd, base + (ps + pd), tb, true⟩]
        else [] := rfl

theorem cutLoudParts_cons_eq (base D tb ps po pd : Int) (lp : LoudPart)
    (rest : List LoudPart) :
    cutLoudParts base D tb ps po pd (lp :: rest)
      = (if 0 < lp.offset - (ps + pd) then
          [⟨lp.offset - (ps + pd), po + pd, base + (ps + pd), tb, true⟩]
        else [])
        ++ ⟨lp.dur, lp.offset, base + (po + pd + (lp.offset - (ps + pd))), tb, false⟩ ::
          cutLoudParts base D tb lp.offset (po + pd + (lp.offset - (ps + pd))) lp.dur rest :=
  rfl

theorem getLast?_cons_of_ne (a : SubClip) (l : List SubClip) (h : l ≠ []) :
    (a :: l).getLast? = l.getLast? := by
  cases l with
  | nil => exact absurd rfl h
  | cons b t => rw [List.getLast?_cons_cons]

theorem cutLoudParts_getLast_loud (base D tb : Int) (lm : List LoudPart) :
    ∀ ps pd lp, lm.getLast? = some lp → lp.offset + lp.dur = D →
      ((cutLoudParts base D tb ps ps pd lm).getLast?).map (fun c => c.silent)
        = some false := by
  induction lm with
  | nil => intro ps pd lp h; simp at h
  | cons x rest ih =>
    intro ps pd lp h hD
    have hpo : ps + pd + (x.offset - (ps + pd)) = x.offset := by ring
    cases rest with
    | nil =>
      simp only [List.getLast?_singleton, Option.some.injEq] at h
      subst h
      rw [cutLoudParts_cons_eq, hpo]
      have hnil : cutLoudParts base D tb x.offset x.offset x.dur [] = [] := by
        rw [cutLoudParts_nil_eq, if_neg (by omega)]
      rw [hnil, List.getLast?_append_cons, List.getLast?_singleton]
      rfl
    | cons y t =>
      rw [List.getLast?_cons_cons] at h
      have htail := ih x.offset x.dur lp h hD
      rw [cutLoudParts_cons_eq, hpo, List.getLast?_append_cons,
        getLast?_cons_of_ne _ _ (cutLoudParts_cons_ne_nil base D tb x.offset x.offset x.dur y t)]
      exact htail

theorem cutAsset_head_first_at_zero (base D tb : Int) (lp : LoudPart)
    (rest : List LoudPart) (h : lp.offset = 0) :
    (cutAsset base D tb (lp :: rest)).head? = some ⟨lp.dur, 0, base, tb, false⟩ := by
  simp only [cutAsset, cutLoudParts, h]
  rw [if_neg (by omega)]
  simp only [List.nil_append, List.head?_cons, Option.some.injEq]
  norm_num

theorem cutClipsRun_get (pre : List Asset) :
    ∀ (cum : Int) (a : Asset) (post : List Asset) (lm : List LoudPart),
      (∀ x ∈ pre, x.loudMap.isSome = true) → a.loudMap = some lm →
      (cutClipsRun cum (pre ++ a :: post)).1[pre.length]?
        = some (cutAsset (cum + (pre.map Asset.duration).sum) a.duration
            a.timebase.1 lm) := by
  induction pre with
  | nil =>
    intro cum a post lm _ ha
    simp [cutClipsRun, ha]
  | cons x pre ih =>
    intro cum a post lm hpre ha
    have hx := hpre x (List.mem_cons_self _ _)
    obtain ⟨lmx, hlmx⟩ := Option.isSome_iff_exists.mp hx
    simp only [List.cons_append, cutClipsRun, hlmx, List.length_cons,
      List.getElem?_cons_succ, List.map_cons, List.sum_cons]
    rw [← add_assoc]
    exact ih (cum + x.duration) a post lm (fun y hy => hpre y (List.mem_cons_of_mem _ hy)) ha


/-- Method names defined in the `RemoveSilence` class body, in source order. -/
def removeSilenceMethods : List String :=
  ["__init__", "generate_video_loud_map", "generate_loud_video_preview",
   "generate_loud_map_for_each_video_in_folder", "get_loud_map", "cut_clips",
   "remove_silence", "generate_previews_for_videos", "join_all_preview_videos",
   "generate_final_preview_video"]

/-- Instance attributes assigned in `RemoveSilence.__init__`. -/
def removeSilenceInstanceAttrs : List String :=
  ["timeline", "videos_folder", "loud_maps_folder", "loud_map_sufix",
   "loud_video_preview_sufix", "preview_videos_list_file", "preview_final_video",
   "cumulative_duration", "margin"]

/-- Attribute name that `Orchestrator.remove_silence` looks up on its
`RemoveSilence` instance, or `none` when the early `if self.args.just_subtitles:
return` fires. -/
def orchestratorRemoveSilenceInvokes (just_subtitles : Bool) : Option String :=
  if just_subtitles then none else some "remove_silence_from_videos"

/-- Timeline mutations performed by the body of `RemoveSilence.remove_silence`,
which is the single statement `pass`: none. -/
def removeSilenceStubMutations : List TimelineEvent := []

/-- C1: for every asset in a `cut_clips` run whose loud map is well-formed,
every emitted sub-clip's placement offset equals the cumulative duration of the
assets processed before it plus the sub-clip's source in-point; in particular,
after a first asset of duration 100 with an empty loud map, a second asset of
duration 80 with loud map `[(0,80)]` yields the single sub-clip
`(in-point 0, duration 80, placement offset 100)`. -/
theorem cut_clips_placement_offset :
    (∀ (pre : List Asset) (a : Asset) (post : List Asset) (lm : List LoudPart)
        (out : List SubClip),
        (∀ x ∈ pre, x.loudMap.isSome = true) →
        a.loudMap = some lm →
        wfLoudMap a.duration lm = true →
        (cutClipsRun 0 (pre ++ a :: post)).1[pre.length]? = some out →
        ∀ cl ∈ out, cl.offset = (pre.map Asset.duration).sum + cl.start)
    ∧ (cutClipsRun 0 [⟨100, (30,1), some []⟩, ⟨80, (30,1), some [⟨0,80⟩]⟩]).1
        = [[⟨100,0,0,30,true⟩], [⟨80,0,100,30,false⟩]] := by
  constructor
  · intro pre a post lm out hpre ha _ hout cl hcl
    rw [cutClipsRun_get pre 0 a post lm hpre ha] at hout
    have hone := Option.some.inj hout
    rw [← hone] at hcl
    have := cutLoudParts_offset_eq (0 + (pre.map Asset.duration).sum) a.duration
      a.timebase.1 lm 0 0 cl hcl
    simpa using this
  · decide

theorem cut_clips_placement_offset_witness :
    SubClip.offset ⟨80,0,100,30,false⟩
      = (List.map Asset.duration [⟨100,(30,1),some []⟩]).sum
        + SubClip.start ⟨80,0,100,30,false⟩ :=
  cut_clips_placement_offset.1 [⟨100,(30,1),some []⟩] ⟨80,(30,1),some [⟨0,80⟩]⟩ []
    [⟨0,80⟩] [⟨80,0,100,30,false⟩] (by decide) rfl (by decide) (by decide)
    ⟨80,0,100,30,false⟩ (by decide)


/-- C2: for every asset with a well-formed loud map, the emitted sub-clips in
emission order contiguously partition the asset's media: consecutive sub-clips
satisfy `start + duration = next.start`, the first starts at in-point 0, the
last ends at `D`, and the durations sum to `D`. -/
theorem cut_clips_contiguous_coverage (base D tb : Int) (lm : List LoudPart)
    (hD : 0 ≤ D) (hwf : wfLoudMap D lm = true) :
    contiguousFrom 0 (cutAsset base D tb lm) = true
    ∧ (∀ (i : Nat) (c1 c2 : SubClip), (cutAsset base D tb lm)[i]? = some c1 →
        (cutAsset base D tb lm)[i+1]? = some c2 →
        c1.start + c1.num_frames = c2.start)
    ∧ (∀ cl, (cutAsset base D tb lm).head? = some cl → cl.start = 0)
    ∧ (∀ cl, (cutAsset base D tb lm).getLast? = some cl →
        cl.start + cl.num_frames = D)
    ∧ sumDur (cutAsset base D tb lm) = D := by
  have key := cutLoudParts_contig base D tb lm 0 0 (by simpa using hD)
    (by simpa [wfLoudMap] using hwf)
  have hz : (0 : Int) + 0 = 0 := by norm_num
  rw [hz] at key
  have hcontig : contiguousFrom 0 (cutAsset base D tb lm) = true := key.1
  have hsum : sumDur (cutAsset base D tb lm) = D := by
    have := key.2
    simpa using this
  refine ⟨hcontig, ?_, ?_, ?_, hsum⟩
  · intro i c1 c2 h1 h2
    exact contiguousFrom_pairwise (cutAsset base D tb lm) 0 hcontig i c1 c2 h1 h2
  · intro cl hcl
    exact contiguousFrom_head (cutAsset base D tb lm) 0 hcontig cl hcl
  · intro cl hcl
    have := contiguousFrom_getLast (cutAsset base D tb lm) 0 hcontig cl hcl
    rw [hsum] at this
    simpa using this

theorem cut_clips_contiguous_coverage_witness :
    contiguousFrom 0 (cutAsset 0 100 30 [⟨10,20⟩,⟨50,10⟩]) = true
    ∧ sumDur (cutAsset 0 100 30 [⟨10,20⟩,⟨50,10⟩]) = 100 :=
  ⟨(cut_clips_contiguous_coverage 0 100 30 [⟨10,20⟩,⟨50,10⟩] (by decide) (by decide)).1,
   (cut_clips_contiguous_coverage 0 100 30 [⟨10,20⟩,⟨50,10⟩] (by decide) (by decide)).2.2.2.2⟩


/-- C3 counterexample: in a two-asset run the claim requires the sequence total
duration to be recomputed once per asset (twice in total); `cut_clips` calls
`update_sequence_duration` only once, after the loop over all assets, so the
trace of this concrete run contains one update call, not two. -/
theorem cut_clips_update_once_counterexample :
    ¬ countUpdateSeq (cutClipsTrace 0
        [⟨100, (30,1), some []⟩, ⟨80, (30,1), some [⟨0,80⟩]⟩]) = 2 := by decide

/-- C3 amended: in a fully successful run, `update_sequence_duration` is called
exactly once, as the final timeline mutation after all assets are processed;
the cumulative base used for each asset's placement offsets is instead the
`cumulative_duration` counter maintained incrementally by
`self.cumulative_duration += base_clip_duration`, i.e. the sum of the base-clip
durations of the previously processed assets. -/
theorem cut_clips_update_once_per_run (cum : Int) (assets : List Asset)
    (hload : ∀ a ∈ assets, a.loudMap.isSome = true) :
    countUpdateSeq (cutClipsTrace cum assets) = 1
    ∧ (cutClipsTrace cum assets).getLast? = some TimelineEvent.updateSeq
    ∧ (∀ (pre : List Asset) (a : Asset) (post : List Asset) (lm : List LoudPart),
        assets = pre ++ a :: post → a.loudMap = some lm →
        (cutClipsRun cum assets).1[pre.length]?
          = some (cutAsset (cum + (pre.map Asset.duration).sum) a.duration
              a.timebase.1 lm)) := by
  refine ⟨?_, ?_, ?_⟩
  · induction assets generalizing cum with
    | nil => rfl
    | cons x rest ih =>
      have hx := hload x (List.mem_cons_self _ _)
      obtain ⟨lmx, hlmx⟩ := Option.isSome_iff_exists.mp hx
      simp only [cutClipsTrace, hlmx]
      rw [countUpdateSeq_append, countUpdateSeq_map_addClip]
      have hr := ih (cum + x.duration) (fun y hy => hload y (List.mem_cons_of_mem _ hy))
      simp only [countUpdateSeq]
      omega
  · induction assets generalizing cum with
    | nil => rfl
    | cons x rest ih =>
      have hx := hload x (List.mem_cons_self _ _)
      obtain ⟨lmx, hlmx⟩ := Option.isSome_iff_exists.mp hx
      simp only [cutClipsTrace, hlmx]
      rw [List.getLast?_append_cons]
      have htail := ih (cum + x.duration) (fun y hy => hload y (List.mem_cons_of_mem _ hy))
      cases hc : cutClipsTrace (cum + x.duration) rest with
      | nil => rw [hc] at htail; simp at htail
      | cons e t =>
        rw [hc] at htail
        rw [List.getLast?_cons_cons]
        exact htail
  · intro pre a post lm hsplit ha
    subst hsplit
    exact cutClipsRun_get pre cum a post lm
      (fun y hy => hload y (List.mem_append_left _ hy)) ha

theorem cut_clips_update_once_per_run_witness :
    countUpdateSeq (cutClipsTrace 0
        [⟨100, (30,1), some []⟩, ⟨80, (30,1), some [⟨0,80⟩]⟩]) = 1
    ∧ (cutClipsTrace 0 [⟨100, (30,1), some []⟩, ⟨80, (30,1), some [⟨0,80⟩]⟩]).getLast?
        = some TimelineEvent.updateSeq :=
  ⟨(cut_clips_update_once_per_run 0
      [⟨100, (30,1), some []⟩, ⟨80, (30,1), some [⟨0,80⟩]⟩] (by decide)).1,
   (cut_clips_update_once_per_run 0
      [⟨100, (30,1), some []⟩, ⟨80, (30,1), some [⟨0,80⟩]⟩] (by decide)).2.1⟩

/-- C4: when an asset's loud map fails to load, `cut_clips` raises out of the
loop before any mutation for that asset: the outputs cover exactly the earlier
assets, the failing asset (base clip intact) and all later assets remain
unprocessed, the post-loop `update_sequence_duration` call is never reached,
and exactly one base-clip removal happened per earlier asset. -/
theorem cut_clips_load_failure_no_mutation (cum : Int) (pre : List Asset)
    (a : Asset) (post : List Asset)
    (hpre : ∀ x ∈ pre, x.loudMap.isSome = true) (ha : a.loudMap = none) :
    (cutClipsRun cum (pre ++ a :: post)).1.length = pre.length
    ∧ (cutClipsRun cum (pre ++ a :: post)).2.1 = a :: post
    ∧ (cutClipsRun cum (pre ++ a :: post)).2.2 = false
    ∧ countUpdateSeq (cutClipsTrace cum (pre ++ a :: post)) = 0
    ∧ countRemoveBase (cutClipsTrace cum (pre ++ a :: post)) = pre.length := by
  induction pre generalizing cum with
  | nil =>
    simp [cutClipsRun, cutClipsTrace, ha, countUpdateSeq, countRemoveBase]
  | cons x pre ih =>
    have hx := hpre x (List.mem_cons_self _ _)
    obtain ⟨lmx, hlmx⟩ := Option.isSome_iff_exists.mp hx
    have hih := ih (cum + x.duration) (fun y hy => hpre y (List.mem_cons_of_mem _ hy))
    simp only [List.cons_append, cutClipsRun, cutClipsTrace, hlmx, List.length_cons,
      List.append_eq]
    refine ⟨?_, hih.2.1, hih.2.2.1, ?_, ?_⟩
    · simp only [List.length_cons, hih.1]
    · rw [countUpdateSeq_append, countUpdateSeq_map_addClip]
      have h4 := hih.2.2.2.1
      simp only [countUpdateSeq]
      omega
    · rw [countRemoveBase_append, countRemoveBase_map_addClip]
      have h5 := hih.2.2.2.2
      simp only [countRemoveBase]
      omega

theorem cut_clips_load_failure_no_mutation_witness :
    (cutClipsRun 0 [⟨100,(30,1),some []⟩, ⟨80,(30,1),none⟩]).1.length = 1
    ∧ (cutClipsRun 0 [⟨100,(30,1),some []⟩, ⟨80,(30,1),none⟩]).2.1
        = [⟨80,(30,1),none⟩]
    ∧ (cutClipsRun 0 [⟨100,(30,1),some []⟩, ⟨80,(30,1),none⟩]).2.2 = false
    ∧ countUpdateSeq (cutClipsTrace 0 [⟨100,(30,1),some []⟩, ⟨80,(30,1),none⟩]) = 0
    ∧ countRemoveBase (cutClipsTrace 0 [⟨100,(30,1),some []⟩, ⟨80,(30,1),none⟩]) = 1 :=
  cut_clips_load_failure_no_mutation 0 [⟨100,(30,1),some []⟩]
    ⟨80,(30,1),none⟩ [] (by decide) rfl


/-- C5: with `--just-subtitles` unset, `Orchestrator.remove_silence` looks up
the attribute `remove_silence_from_videos` on the `RemoveSilence` instance; no
method or instance attribute of that name exists (the segmentation logic is in
`cut_clips`, and `remove_silence` is an empty `pass` stub), so the lookup
raises `AttributeError` before any segmentation occurs. -/
theorem orchestrator_calls_missing_method :
    orchestratorRemoveSilenceInvokes false = some "remove_silence_from_videos"
    ∧ (removeSilenceMethods ++ removeSilenceInstanceAttrs).contains
        "remove_silence_from_videos" = false
    ∧ removeSilenceMethods.contains "cut_clips" = true
    ∧ removeSilenceMethods.contains "remove_silence" = true
    ∧ removeSilenceStubMutations = [] := by
  refine ⟨rfl, ?_, ?_, ?_, rfl⟩ <;> decide

/-- C6: a first-processed asset (`base = 0`) with duration 100, timebase 30/1
and loud map `[(start 10, dur 20), (start 50, dur 10)]` yields exactly five
sub-clips `(in-point, duration, tag)`: (0,10,silent), (10,20,loud),
(30,20,silent), (50,10,loud), (60,40,silent), each placed at offset equal to
its in-point. -/
theorem cut_clips_alternating_scenario :
    (cutClipsRun 0 [⟨100, (30,1), some [⟨10,20⟩, ⟨50,10⟩]⟩]).1
      = [[⟨10,0,0,30,true⟩, ⟨20,10,10,30,false⟩, ⟨20,30,30,30,true⟩,
          ⟨10,50,50,30,false⟩, ⟨40,60,60,30,true⟩]] := by decide

/-- C7: the sub-clips not tagged silent, in emission order, are exactly the
loud-map intervals (same in-points and durations, one sub-clip per interval);
hence a sub-clip carries the silent tag iff it was emitted from a gap between
intervals or from the trailing gap, and every interval-emitted sub-clip is
untagged. -/
theorem cut_clips_silent_tag_iff_gap (base D tb : Int) (lm : List LoudPart) :
    ((cutAsset base D tb lm).filter (fun c => !c.silent)).map
        (fun c => (c.start, c.num_frames))
      = lm.map (fun lp => (lp.offset, lp.dur)) :=
  cutLoudParts_filter_loud base D tb lm 0 0 0

/-- C8: zero-duration silent segments are elided.  First conjunct, the general
case: whenever a loud interval starts exactly at the current source cursor
(`previous_loud_clip_start + previous_loud_clip_duration = lp.offset`, at any
point of the loop, in any cursor state), the `silent_clip_duration > 0` guard
fails and the interval's loud sub-clip is emitted immediately, with no silent
sub-clip before it.  Second conjunct, the parenthetical instance: a first
interval starting at 0 emits no leading silent clip.  Third: a last interval
ending exactly at `D` emits no trailing silent clip.  Fourth: a loud map
contiguously covering `[0, D)` yields exactly its intervals as loud sub-clips,
with no silent sub-clips at all. -/
theorem cut_clips_zero_gap_elision :
    (∀ (base D tb ps po pd : Int) (lp : LoudPart) (rest : List LoudPart),
      lp.offset = ps + pd →
      cutLoudParts base D tb ps po pd (lp :: rest)
        = ⟨lp.dur, lp.offset, base + (po + pd), tb, false⟩ ::
            cutLoudParts base D tb lp.offset (po + pd) lp.dur rest)
    ∧ (∀ (base D tb : Int) (lp : LoudPart) (rest : List LoudPart), lp.offset = 0 →
      (cutAsset base D tb (lp :: rest)).head? = some ⟨lp.dur, 0, base, tb, false⟩)
    ∧ (∀ (base D tb : Int) (lm : List LoudPart) (lp : LoudPart),
        lm.getLast? = some lp → lp.offset + lp.dur = D →
        ((cutAsset base D tb lm).getLast?).map (fun c => c.silent) = some false)
    ∧ (∀ (base D tb : Int) (lm : List LoudPart), coversFrom 0 D lm = true →
        cutAsset base D tb lm
          = lm.map (fun lp => ⟨lp.dur, lp.offset, base + lp.offset, tb, false⟩)) := by
  refine ⟨?_, ?_, ?_, ?_⟩
  · intro base D tb ps po pd lp rest h
    rw [cutLoudParts_cons_eq, if_neg (by omega)]
    have h1 : po + pd + (lp.offset - (ps + pd)) = po + pd := by omega
    rw [h1, List.nil_append]
  · intro base D tb lp rest h
    exact cutAsset_head_first_at_zero base D tb lp rest h
  · intro base D tb lm lp h hD
    exact cutLoudParts_getLast_loud base D tb lm 0 0 lp h hD
  · intro base D tb lm h
    exact cutLoudParts_covers base D tb lm 0 0 (by simpa using h)

theorem cut_clips_zero_gap_elision_witness :
    LoudPart.offset ⟨10,5⟩ = 0 + 10
    ∧ cutLoudParts 0 100 30 0 0 10 [⟨10,5⟩]
        = ⟨5, 10, 0 + (0 + 10), 30, false⟩ :: cutLoudParts 0 100 30 10 (0 + 10) 5 []
    ∧ coversFrom 0 100 [⟨0,30⟩, ⟨30,70⟩] = true
    ∧ cutAsset 0 100 30 [⟨0,30⟩, ⟨30,70⟩]
        = List.map (fun lp : LoudPart =>
            (⟨lp.dur, lp.offset, 0 + lp.offset, 30, false⟩ : SubClip))
            [⟨0,30⟩, ⟨30,70⟩] :=
  ⟨by decide,
   cut_clips_zero_gap_elision.1 0 100 30 0 0 10 ⟨10,5⟩ [] (by decide),
   by decide,
   cut_clips_zero_gap_elision.2.2.2 0 100 30 [⟨0,30⟩, ⟨30,70⟩] (by decide)⟩

/-- C9: an asset with a positive duration `D` and an empty loud map yields
exactly one sub-clip: silent, in-point 0, duration `D`, placed at the
cumulative base. -/
theorem cut_clips_empty_map (base D tb : Int) (h : 0 < D) :
    cutAsset base D tb [] = [⟨D, 0, base, tb, true⟩] := by
  rw [cutAsset, cutLoudParts_nil_eq, if_pos (by omega)]
  norm_num

theorem cut_clips_empty_map_witness :
    (0 : Int) < 50 ∧ cutAsset 0 50 30 [] = [⟨50, 0, 0, 30, true⟩] :=
  ⟨by decide, cut_clips_empty_map 0 50 30 (by decide)⟩

/-- C10: per-asset segmentation is total on arbitrary (also malformed) loud
maps: the output is a finite list of at most `2·n + 1` sub-clips for an
`n`-interval map, every interval emits exactly one untagged sub-clip (no
sorting, deduplication or validation), and non-positive gaps are skipped; on
the unsorted overlapping map `[(50,10),(10,20)]` with `D = 100` the engine
still emits a well-defined (malformed) sequence. -/
theorem cut_clips_total_on_malformed :
    (∀ (base D tb : Int) (lm : List LoudPart),
      (cutAsset base D tb lm).length ≤ 2 * lm.length + 1
      ∧ ((cutAsset base D tb lm).filter (fun c => !c.silent)).length = lm.length)
    ∧ cutAsset 0 100 30 [⟨50,10⟩, ⟨10,20⟩]
        = [⟨50,0,0,30,true⟩, ⟨10,50,50,30,false⟩, ⟨20,10,10,30,false⟩,
           ⟨70,30,30,30,true⟩] := by
  constructor
  · intro base D tb lm
    constructor
    · exact cutLoudParts_length_le base D tb lm 0 0 0
    · have h := cutLoudParts_filter_loud base D tb lm 0 0 0
      have := congrArg List.length h
      simpa using this
  · decide

end AVE
